import Mathlib

/-!
Shallow embedding of the ACK-frame wire codec, ack-range model and
sent-packet record of this QUIC transport core.

The repository sources available here contain the test suites for the wire
codec (`internal/wire/ack_frame_test.go`, `stop_sending_frame_test.go`) and
the sent-packet record (`internal/ackhandler/packet.go`).  The codec
implementation itself (`parseAckFrame`, `AckFrame.Append`,
`validateAckRanges`, `AcksPacket`, the varint codec) is not among the
sources, so those definitions are modelled from the specification
(spec.md §3, §4.1–4.3), kept consistent with the concrete byte-level test
vectors of the test files, which are authoritative where they and the
spec's prose disagree.

Bytes are modelled as `List Nat` (each entry < 256 on real wire data);
machine integers as `Nat` with explicit bounds (`< 2^62` for varint
payloads, `≤ maxDuration` for Go `time.Duration` values in nanoseconds).
Fallible parsing returns `Except ParseError`.
-/

/-- Modelled from the spec: error taxonomy of the frame codec (spec.md §7).
`eof` is the truncation error (Go `io.EOF`); the other two are the
malformed-frame conditions of `parseAckFrame`. -/
inductive ParseError where
  | eof
  | invalidFirstAckRange
  | invalidAckRanges
deriving Repr, DecidableEq

/-- Modelled from the spec: big-endian accumulation of `n` further bytes of a
varint body onto the already-read high bits `acc` (spec.md §4.1); fails with
a truncation error when fewer than `n` bytes remain. -/
def readBytes : Nat → Nat → List Nat → Except ParseError (Nat × List Nat)
  | 0, acc, l => .ok (acc, l)
  | _ + 1, _, [] => .error .eof
  | n + 1, acc, b :: l => readBytes n (acc * 256 + b) l

/-- Modelled from the spec: varint decoder (spec.md §3, §4.1; the missing
`quicvarint.Read`).  The two high bits of the first byte choose a
1/2/4/8-byte encoding; decoding accepts any of the four lengths.  Returns
the value and the unconsumed remainder of the input. -/
def readVarInt : List Nat → Except ParseError (Nat × List Nat)
  | [] => .error .eof
  | b :: l => readBytes (2 ^ (b / 64) - 1) (b % 64) l

/-- Big-endian byte list of length `n` holding `v % 256^n`. -/
def toBytesBE : Nat → Nat → List Nat
  | 0, _ => []
  | n + 1, v => v / 256 ^ n % 256 :: toBytesBE n v

/-- Modelled from the spec: minimal-length varint encoder (spec.md §3, §4.1;
the missing `quicvarint.Append`, used by the tests as `encodeVarInt`).
Meaningful for values below `2^62`. -/
def encodeVarInt (v : Nat) : List Nat :=
  if v < 64 then [v]
  else if v < 16384 then (64 + v / 256) :: toBytesBE 1 v
  else if v < 1073741824 then (128 + v / 16777216) :: toBytesBE 3 v
  else (192 + v / 72057594037927936) :: toBytesBE 7 v

/-- Modelled from the spec: byte length of the minimal varint encoding of a
value (the missing `quicvarint.Len`). -/
def varIntLen (v : Nat) : Nat :=
  if v < 64 then 1
  else if v < 16384 then 2
  else if v < 1073741824 then 4
  else 8

theorem toBytesBE_length (n v : Nat) : (toBytesBE n v).length = n := by
  induction n generalizing v with
  | zero => rfl
  | succ n ih => simp [toBytesBE, ih]

theorem encodeVarInt_length (v : Nat) : (encodeVarInt v).length = varIntLen v := by
  unfold encodeVarInt varIntLen
  split
  · rfl
  · split
    · simp [toBytesBE_length]
    · split <;> simp [toBytesBE_length]

theorem varIntLen_le (v : Nat) : varIntLen v ≤ 8 := by
  unfold varIntLen
  split
  · omega
  · split
    · omega
    · split <;> omega

theorem varIntLen_pos (v : Nat) : 1 ≤ varIntLen v := by
  unfold varIntLen
  split
  · omega
  · split
    · omega
    · split <;> omega

theorem readBytes_eof (n acc : Nat) (l : List Nat) (h : l.length < n) :
    readBytes n acc l = .error .eof := by
  induction n generalizing acc l with
  | zero => omega
  | succ n ih =>
    cases l with
    | nil => rfl
    | cons b t =>
      simp only [readBytes]
      exact ih _ t (by simpa using h)

theorem readBytes_append (n : Nat) :
    ∀ (acc v : Nat) (l : List Nat),
      readBytes n acc (toBytesBE n v ++ l) = .ok (acc * 256 ^ n + v % 256 ^ n, l) := by
  induction n with
  | zero => intro acc v l; simp [toBytesBE, readBytes, Nat.mod_one]
  | succ n ih =>
    intro acc v l
    simp only [toBytesBE, List.cons_append, readBytes, List.append_eq]
    rw [ih]
    congr 2
    have hmod : v % 256 ^ (n + 1) = v % 256 ^ n + 256 ^ n * (v / 256 ^ n % 256) := by
      rw [pow_succ, Nat.mod_mul]
    rw [hmod, pow_succ]
    ring

theorem readVarInt_append (v : Nat) (hv : v < 4611686018427387904) (l : List Nat) :
    readVarInt (encodeVarInt v ++ l) = .ok (v, l) := by
  unfold encodeVarInt
  split
  · next h =>
    simp only [List.cons_append, List.nil_append, readVarInt]
    have : v / 64 = 0 := Nat.div_eq_of_lt h
    rw [this]
    simp [readBytes, Nat.mod_eq_of_lt h]
  · next h =>
    split
    · next h2 =>
      simp only [List.cons_append, readVarInt]
      have hd : v / 256 < 64 := by omega
      have : (64 + v / 256) / 64 = 1 := by omega
      rw [this]
      have : (64 + v / 256) % 64 = v / 256 := by omega
      rw [this]
      have := readBytes_append 1 (v / 256) v l
      simp only [pow_one] at this
      rw [show (2:Nat) ^ 1 - 1 = 1 by rfl, this]
      congr 2
      omega
    · next h2 =>
      split
      · next h3 =>
        simp only [List.cons_append, readVarInt]
        have hd : v / 16777216 < 64 := by omega
        have : (128 + v / 16777216) / 64 = 2 := by omega
        rw [this]
        have : (128 + v / 16777216) % 64 = v / 16777216 := by omega
        rw [this]
        have := readBytes_append 3 (v / 16777216) v l
        rw [show (2:Nat) ^ 2 - 1 = 3 by rfl, this]
        congr 2
        have : (256:Nat) ^ 3 = 16777216 := by norm_num
        rw [this]
        omega
      · next h3 =>
        simp only [List.cons_append, readVarInt]
        have hd : v / 72057594037927936 < 64 := by omega
        have : (192 + v / 72057594037927936) / 64 = 3 := by omega
        rw [this]
        have : (192 + v / 72057594037927936) % 64 = v / 72057594037927936 := by omega
        rw [this]
        have := readBytes_append 7 (v / 72057594037927936) v l
        rw [show (2:Nat) ^ 3 - 1 = 7 by rfl, this]
        congr 2
        have : (256:Nat) ^ 7 = 72057594037927936 := by norm_num
        rw [this]
        omega

theorem readVarInt_trunc_aux (b : Nat) (t : List Nat) (ht : t.length = 2 ^ (b / 64) - 1) :
    ∀ i, i < (b :: t).length → readVarInt ((b :: t).take i) = .error .eof := by
  intro i hi
  cases i with
  | zero => rfl
  | succ i =>
    simp only [List.take_succ_cons, readVarInt]
    apply readBytes_eof
    simp only [List.length_cons] at hi
    simp only [List.length_take]
    omega

theorem readVarInt_trunc (v : Nat) (hv : v < 4611686018427387904) :
    ∀ i, i < (encodeVarInt v).length → readVarInt ((encodeVarInt v).take i) = .error .eof := by
  unfold encodeVarInt
  split
  · next h =>
    apply readVarInt_trunc_aux
    have : v / 64 = 0 := Nat.div_eq_of_lt h
    simp [this]
  · next h =>
    split
    · next h2 =>
      apply readVarInt_trunc_aux
      have : (64 + v / 256) / 64 = 1 := by omega
      simp [this, toBytesBE_length]
    · next h2 =>
      split
      · next h3 =>
        apply readVarInt_trunc_aux
        have : (128 + v / 16777216) / 64 = 2 := by omega
        simp [this, toBytesBE_length]
      · next h3 =>
        apply readVarInt_trunc_aux
        have : (192 + v / 72057594037927936) / 64 = 3 := by omega
        simp [this, toBytesBE_length]

/-- Modelled from the spec: one acknowledged packet-number range,
`smallest ≤ largest` (spec.md §3; the missing `wire.AckRange`). -/
structure AckRange where
  smallest : Nat
  largest : Nat
deriving Repr, DecidableEq

/-- Modelled from the spec: an ACK frame — ordered descending range list, a
delay duration in nanoseconds, and the three ECN counters of the
`ACK_ECN` variant (zero when absent) (spec.md §3; the missing
`wire.AckFrame`). -/
structure AckFrame where
  ackRanges : List AckRange
  delayTime : Nat
  ect0 : Nat
  ect1 : Nat
  ecnce : Nat
deriving Repr, DecidableEq

/-- Modelled from the spec: the maximum representable duration, Go's
`time.Duration` ceiling of `2^63 − 1` nanoseconds (about 292 years), to
which ack-delay decoding saturates (spec.md §4.2). -/
def maxDuration : Nat := 9223372036854775807

/-- Modelled from the spec: the default ack-delay exponent
(`protocol.AckDelayExponent`, the QUIC default of 3) used by the tests and
by the encoder. -/
def AckDelayExponent : Nat := 3

/-- Modelled from the spec: the fixed maximum ack-frame byte budget
(`protocol.MaxAckFrameSize`) of the size-capping policy (spec.md §4.3). -/
def MaxAckFrameSize : Nat := 1000

/-- Modelled from the spec: ack-delay decoding — the raw varint value times
`2^exponent` microseconds, saturating at the maximum representable
duration instead of wrapping (spec.md §4.2).  In nanoseconds. -/
def decodeAckDelay (raw e : Nat) : Nat := min (raw * 2 ^ e * 1000) maxDuration

/-- Modelled from the spec: ack-delay encoding with the default exponent —
the delay in nanoseconds scaled down to units of `2^AckDelayExponent`
microseconds (the missing `encodeAckDelay`). -/
def encodeAckDelay (delay : Nat) : Nat := delay / (1000 * 2 ^ AckDelayExponent)

/-- Modelled from the spec: whether the frame uses the `ACK_ECN` variant —
any of the three ECN counters nonzero (spec.md §3, §4.2). -/
def hasECN (f : AckFrame) : Bool :=
  decide (0 < f.ect0) || decide (0 < f.ect1) || decide (0 < f.ecnce)

/-- Modelled from the spec: validity of consecutive ranges after a given
one — strictly descending by largest, no overlap and no touching, each
range internally ordered (spec.md §3, §4.3). -/
def validAckRangesAux : AckRange → List AckRange → Bool
  | _, [] => true
  | prev, r :: rest =>
    decide (r.smallest ≤ r.largest) && decide (r.largest < prev.largest) &&
      decide (r.largest + 1 < prev.smallest) && validAckRangesAux r rest

/-- Modelled from the spec: the ack-range validator on a range list — true
iff the list is non-empty, every range has `smallest ≤ largest`, ranges are
strictly descending by `largest`, and consecutive ranges neither overlap
nor touch (spec.md §4.3). -/
def validateAckRangesL : List AckRange → Bool
  | [] => false
  | r :: rest => decide (r.smallest ≤ r.largest) && validAckRangesAux r rest

/-- Modelled from the spec: the frame-level validator
(`AckFrame.validateAckRanges`). -/
def AckFrame.validateAckRanges (f : AckFrame) : Bool :=
  validateAckRangesL f.ackRanges

/-- Modelled from the spec: whether the frame leaves gaps, i.e. carries
more than one range (the missing `AckFrame.HasMissingRanges`). -/
def AckFrame.HasMissingRanges (f : AckFrame) : Bool :=
  decide (1 < f.ackRanges.length)

/-- Modelled from the spec: the loop of `parseAckFrame` reading `n`
(gap, ack-range-length) varint pairs (spec.md §4.2).  Gap decoding follows
the test vectors of `ack_frame_test.go`: the new range's largest is the
previous smallest minus the gap minus 2.  Underflowing gaps or lengths are
malformed. -/
def readAckRanges : Nat → Nat → List AckRange → List Nat →
    Except ParseError (List AckRange × List Nat)
  | 0, _, acc, r => .ok (acc, r)
  | n + 1, smallest, acc, r =>
    match readVarInt r with
    | .error e => .error e
    | .ok (gap, r) =>
      if smallest < gap + 2 then .error .invalidAckRanges
      else
        match readVarInt r with
        | .error e => .error e
        | .ok (len, r) =>
          if smallest - gap - 2 < len then .error .invalidAckRanges
          else
            readAckRanges n (smallest - gap - 2 - len)
              (acc ++ [⟨smallest - gap - 2 - len, smallest - gap - 2⟩]) r

/-- Modelled from the spec: the stages of the ACK parser body (spec.md
§4.2, §7), written as one named definition per sequential wire read so the
consumed-bytes lemmas compose — largest-acked, ack-delay, ack-range-count,
first-ack-range, the extra ranges, a validator check, and for the ECN
variant the three counters.  A first-ack-range exceeding largest-acked is
malformed; any end of input mid-field is a truncation error.  This stage
reads the last ECN counter. -/
def parseAckEcn2 (e : Nat) (ranges : List AckRange) (delay e0 e1 : Nat) (d : List Nat) :
    Except ParseError (AckFrame × List Nat) :=
  match readVarInt d with
  | .error err => .error err
  | .ok (ce, d) => .ok (⟨ranges, decodeAckDelay delay e, e0, e1, ce⟩, d)

/-- Reading the second and third ECN counters of an `ACK_ECN` body. -/
def parseAckEcn1 (e : Nat) (ranges : List AckRange) (delay e0 : Nat) (d : List Nat) :
    Except ParseError (AckFrame × List Nat) :=
  match readVarInt d with
  | .error err => .error err
  | .ok (e1, d) => parseAckEcn2 e ranges delay e0 e1 d

/-- Reading the three trailing ECN counters of an `ACK_ECN` body. -/
def parseAckEcn (e : Nat) (ranges : List AckRange) (delay : Nat) (d : List Nat) :
    Except ParseError (AckFrame × List Nat) :=
  match readVarInt d with
  | .error err => .error err
  | .ok (e0, d) => parseAckEcn1 e ranges delay e0 d

/-- Stage of `parseAckBody` after all ranges are decoded: the validator
check (malformed on rejection) and, for the ECN variant, the three
counters. -/
def parseAckTail (e : Nat) (ecn : Bool) (delay : Nat) (ranges : List AckRange)
    (d : List Nat) : Except ParseError (AckFrame × List Nat) :=
  if validateAckRangesL ranges then
    if ecn then parseAckEcn e ranges delay d
    else .ok (⟨ranges, decodeAckDelay delay e, 0, 0, 0⟩, d)
  else .error .invalidAckRanges

/-- Stage of `parseAckBody` after the four header varints: the
first-ack-range check (malformed when it exceeds largest-acked) and the
range-reading loop. -/
def parseAckBody4 (e : Nat) (ecn : Bool) (la delay numBlocks ab : Nat) (d : List Nat) :
    Except ParseError (AckFrame × List Nat) :=
  if la < ab then .error .invalidFirstAckRange
  else
    match readAckRanges numBlocks (la - ab) [⟨la - ab, la⟩] d with
    | .error err => .error err
    | .ok (ranges, d) => parseAckTail e ecn delay ranges d

/-- Stage of `parseAckBody` reading the first-ack-range varint. -/
def parseAckBody3 (e : Nat) (ecn : Bool) (la delay numBlocks : Nat) (d : List Nat) :
    Except ParseError (AckFrame × List Nat) :=
  match readVarInt d with
  | .error err => .error err
  | .ok (ab, d) => parseAckBody4 e ecn la delay numBlocks ab d

/-- Stage of `parseAckBody` reading the ack-range-count varint. -/
def parseAckBody2 (e : Nat) (ecn : Bool) (la delay : Nat) (d : List Nat) :
    Except ParseError (AckFrame × List Nat) :=
  match readVarInt d with
  | .error err => .error err
  | .ok (numBlocks, d) => parseAckBody3 e ecn la delay numBlocks d

/-- Stage of `parseAckBody` reading the ack-delay varint. -/
def parseAckBody1 (e : Nat) (ecn : Bool) (la : Nat) (d : List Nat) :
    Except ParseError (AckFrame × List Nat) :=
  match readVarInt d with
  | .error err => .error err
  | .ok (delay, d) => parseAckBody2 e ecn la delay d

/-- Modelled from the spec: body of `parseAckFrame` after the type byte —
the largest-acked varint followed by the later stages (spec.md §4.2). -/
def parseAckBody (e : Nat) (ecn : Bool) (d : List Nat) :
    Except ParseError (AckFrame × List Nat) :=
  match readVarInt d with
  | .error err => .error err
  | .ok (la, d) => parseAckBody1 e ecn la d

/-- Modelled from the spec: the ACK / ACK_ECN frame parser (spec.md §4.2).
Consumes the type byte (`0x2` or `0x3`; bit 0 selects the ECN variant) and
the frame body, returning the frame and the unconsumed input. -/
def parseAckFrame (data : List Nat) (e : Nat) : Except ParseError (AckFrame × List Nat) :=
  match data with
  | [] => .error .eof
  | t :: r => parseAckBody e (t % 2 == 1) r

/-- Modelled from the spec: encoding of all ranges after the first — for
each, the gap varint (previous smallest − largest − 2, per the test
vectors) followed by the range-length varint (spec.md §4.2). -/
def encodeRangesTail : AckRange → List AckRange → List Nat
  | _, [] => []
  | prev, r :: rest =>
    encodeVarInt (prev.smallest - r.largest - 2) ++
      encodeVarInt (r.largest - r.smallest) ++ encodeRangesTail r rest

/-- Byte count of `encodeRangesTail`. -/
def rangesTailLen : AckRange → List AckRange → Nat
  | _, [] => 0
  | prev, r :: rest =>
    varIntLen (prev.smallest - r.largest - 2) +
      varIntLen (r.largest - r.smallest) + rangesTailLen r rest

/-- Modelled from the spec: the wire bytes of an ACK frame body carrying
exactly the given ranges (spec.md §4.2): largest-acked, ack-delay,
ack-range-count, first-ack-range, the remaining ranges, and the ECN
counters of the ECN variant. -/
def ackBodyBytes (f : AckFrame) (ranges : List AckRange) : List Nat :=
  match ranges with
  | [] => []
  | r0 :: rest =>
    encodeVarInt r0.largest ++ encodeVarInt (encodeAckDelay f.delayTime) ++
      encodeVarInt rest.length ++ encodeVarInt (r0.largest - r0.smallest) ++
      encodeRangesTail r0 rest ++
      (if hasECN f then
        encodeVarInt f.ect0 ++ encodeVarInt f.ect1 ++ encodeVarInt f.ecnce
      else [])

/-- Modelled from the spec: the wire length of an ACK frame (type byte
included) carrying exactly the given ranges. -/
def ackFrameLengthWith (f : AckFrame) (ranges : List AckRange) : Nat :=
  match ranges with
  | [] => 0
  | r0 :: rest =>
    1 + varIntLen r0.largest + varIntLen (encodeAckDelay f.delayTime) +
      varIntLen rest.length + varIntLen (r0.largest - r0.smallest) +
      rangesTailLen r0 rest +
      (if hasECN f then
        varIntLen f.ect0 + varIntLen f.ect1 + varIntLen f.ecnce
      else 0)

/-- Modelled from the spec: the size-capping loop (spec.md §4.3) — starting
from `k` ranges, while the provisional wire length exceeds the budget drop
the tail range and recompute, but never drop the single most-recent
range. -/
def capFrom (f : AckFrame) : Nat → Nat
  | 0 => 0
  | 1 => 1
  | k + 2 =>
    if ackFrameLengthWith f (f.ackRanges.take (k + 2)) ≤ MaxAckFrameSize then k + 2
    else capFrom f (k + 1)

/-- Modelled from the spec: how many of the frame's leading ranges the
capped encoding keeps (the missing `numEncodableAckRanges`). -/
def numEncodableAckRanges (f : AckFrame) : Nat := capFrom f f.ackRanges.length

/-- Modelled from the spec: serialization of an ACK frame (the missing
`AckFrame.Append`): the type byte (`0x3` for the ECN variant, else `0x2`)
followed by the body over the capped range list (spec.md §4.2–4.3). -/
def AckFrame.Append (f : AckFrame) : List Nat :=
  (if hasECN f then 3 else 2) ::
    ackBodyBytes f (f.ackRanges.take (numEncodableAckRanges f))

/-- Modelled from the spec: the wire length of the serialized (capped)
frame (the missing `AckFrame.Length`). -/
def AckFrame.Length (f : AckFrame) : Nat :=
  ackFrameLengthWith f (f.ackRanges.take (numEncodableAckRanges f))

/-- Modelled from the spec: `AcksPacket` as described — a descending scan
over the range list that stops as soon as a range's largest is below the
packet number (spec.md §4.3). -/
def acksPacketScan : List AckRange → Nat → Bool
  | [], _ => false
  | r :: rest, p =>
    if r.largest < p then false
    else if r.smallest ≤ p then true
    else acksPacketScan rest p

/-- Modelled from the spec: the frame-level membership test
(`AckFrame.AcksPacket`). -/
def AckFrame.AcksPacket (f : AckFrame) (p : Nat) : Bool :=
  acksPacketScan f.ackRanges p

/-- Modelled from the spec: the brute-force membership scan the spec
compares `acksPacket` against — true iff the packet number lies within any
range (spec.md §8). -/
def acksPacketBrute (f : AckFrame) (p : Nat) : Bool :=
  f.ackRanges.any fun r => decide (r.smallest ≤ p) && decide (p ≤ r.largest)

/-- Modelled from the spec: a STOP_SENDING frame — stream id and
application error code (spec.md §4.2; the missing
`wire.StopSendingFrame`). -/
structure StopSendingFrame where
  streamID : Nat
  errorCode : Nat
deriving Repr, DecidableEq

/-- Stage of the STOP_SENDING parser reading the error-code varint after
the stream id. -/
def parseStopSending1 (sid : Nat) (d : List Nat) :
    Except ParseError (StopSendingFrame × List Nat) :=
  match readVarInt d with
  | .error e => .error e
  | .ok (ec, d) => .ok (⟨sid, ec⟩, d)

/-- Body of the STOP_SENDING parser after the type byte: the stream-id
varint, then the error code. -/
def parseStopSending0 (d : List Nat) : Except ParseError (StopSendingFrame × List Nat) :=
  match readVarInt d with
  | .error e => .error e
  | .ok (sid, d) => parseStopSending1 sid d

/-- Modelled from the spec: the STOP_SENDING parser (the missing
`parseStopSendingFrame`) — type byte, stream-id varint, error-code varint;
any end of input mid-field is a truncation error. -/
def parseStopSendingFrame : List Nat → Except ParseError (StopSendingFrame × List Nat)
  | [] => .error .eof
  | _ :: r => parseStopSending0 r

/-- Modelled from the spec: STOP_SENDING serialization (type tag `0x05`,
then the two varints). -/
def StopSendingFrame.Append (f : StopSendingFrame) : List Nat :=
  5 :: (encodeVarInt f.streamID ++ encodeVarInt f.errorCode)

/-- Modelled from the spec: a PATH_CHALLENGE frame — a fixed 8-byte opaque
payload (spec.md §4.2; the missing `wire.PathChallengeFrame`). -/
structure PathChallengeFrame where
  data : List Nat
deriving Repr, DecidableEq

/-- Modelled from the spec: the PATH_CHALLENGE parser (the missing
`parsePathChallengeFrame`) — type byte then exactly 8 payload bytes; fewer
is a truncation error. -/
def parsePathChallengeFrame : List Nat → Except ParseError (PathChallengeFrame × List Nat)
  | [] => .error .eof
  | _ :: r =>
    if 8 ≤ r.length then .ok (⟨r.take 8⟩, r.drop 8) else .error .eof

/-- Modelled from the spec: PATH_CHALLENGE serialization (type tag `0x1a`
then the 8 payload bytes). -/
def PathChallengeFrame.Append (f : PathChallengeFrame) : List Nat :=
  26 :: f.data

/-- Field bounds a real (Go-representable, encodable) ACK frame satisfies:
varint payloads below `2^62` and a delay within Go's `time.Duration`. -/
def wfAckFrame (f : AckFrame) : Bool :=
  f.ackRanges.all (fun r => decide (r.largest < 4611686018427387904)) &&
    decide (f.ackRanges.length < 4611686018427387904) &&
    decide (f.delayTime ≤ maxDuration) &&
    decide (f.ect0 < 4611686018427387904) &&
    decide (f.ect1 < 4611686018427387904) &&
    decide (f.ecnce < 4611686018427387904)

/-- Field bounds of an encodable STOP_SENDING frame. -/
def wfStopSending (f : StopSendingFrame) : Bool :=
  decide (f.streamID < 4611686018427387904) &&
    decide (f.errorCode < 4611686018427387904)

/-- The sent-packet record (`internal/ackhandler/packet.go`).  The list of
carried frames is an opaque collaborator payload and is not modelled; the
sentinel `InvalidPacketNumber` marking a packet that carried no ACK is
modelled as `none`. -/
structure Packet where
  packetNumber : Nat
  largestAcked : Option Nat
  length : Nat
  encryptionLevel : Nat
  sendTime : Nat
  isPathMTUProbePacket : Bool
  includedInBytesInFlight : Bool
  declaredLost : Bool
  skippedPacket : Bool
deriving Repr, DecidableEq

/-- `Packet.outstanding` from `internal/ackhandler/packet.go`. -/
def Packet.outstanding (p : Packet) : Bool :=
  !p.declaredLost && !p.skippedPacket && !p.isPathMTUProbePacket

/-- A reader relates to a result and a consumed byte chunk when it returns
that result leaving any appended continuation untouched, and fails with a
truncation error on every strict prefix of the chunk. -/
def ReaderOk {α : Type} (R : List Nat → Except ParseError (α × List Nat))
    (res : α) (c : List Nat) : Prop :=
  (∀ l, R (c ++ l) = .ok (res, l)) ∧
    ∀ i, i < c.length → R (c.take i) = .error .eof

theorem ReaderOk.run {α : Type} {R : List Nat → Except ParseError (α × List Nat)}
    {res : α} {c : List Nat} (h : ReaderOk R res c) (l : List Nat) :
    R (c ++ l) = .ok (res, l) := h.1 l

theorem readVarInt_ReaderOk (v : Nat) (hv : v < 4611686018427387904) :
    ReaderOk readVarInt v (encodeVarInt v) :=
  ⟨readVarInt_append v hv, readVarInt_trunc v hv⟩

theorem ReaderOk.pure {α : Type} (res : α) :
    ReaderOk (fun d => .ok (res, d)) res [] := by
  constructor
  · intro l; rfl
  · intro i hi; simp at hi

theorem ReaderOk.bind {α β : Type}
    {R : List Nat → Except ParseError (α × List Nat)}
    {S : List Nat → Except ParseError (β × List Nat)}
    {K : α → List Nat → Except ParseError (β × List Nat)}
    {a : α} {b : β} {c1 c2 : List Nat}
    (hS : ∀ d, S d = match R d with
      | .error e => .error e
      | .ok (x, d') => K x d')
    (hR : ReaderOk R a c1) (hK : ReaderOk (K a) b c2) :
    ReaderOk S b (c1 ++ c2) := by
  constructor
  · intro l
    rw [hS, List.append_assoc, hR.1]
    exact hK.1 l
  · intro i hi
    simp only [List.length_append] at hi
    rw [List.take_append_eq_append_take]
    by_cases hc : i < c1.length
    · have h0 : i - c1.length = 0 := by omega
      rw [h0, List.take_zero, List.append_nil, hS, hR.2 i hc]
    · have h1 : c1.take i = c1 := List.take_of_length_le (by omega)
      rw [h1, hS, hR.1]
      exact hK.2 (i - c1.length) (by omega)

theorem ReaderOk.congr {α : Type}
    {R S : List Nat → Except ParseError (α × List Nat)}
    {res : α} {c : List Nat}
    (h : ∀ d, S d = R d) (hR : ReaderOk R res c) : ReaderOk S res c := by
  constructor
  · intro l; rw [h, hR.1]
  · intro i hi; rw [h, hR.2 i hi]

theorem readAckRanges_ReaderOk (rest : List AckRange) :
    ∀ (prev : AckRange) (acc : List AckRange),
      validAckRangesAux prev rest = true →
      prev.smallest < 4611686018427387904 →
      (∀ r ∈ rest, r.largest < 4611686018427387904) →
      ReaderOk (readAckRanges rest.length prev.smallest acc) (acc ++ rest)
        (encodeRangesTail prev rest) := by
  induction rest with
  | nil =>
    intro prev acc _ _ _
    simp only [List.append_nil, encodeRangesTail, List.length_nil]
    exact ReaderOk.congr (fun d => rfl) (ReaderOk.pure acc)
  | cons cur rest ih =>
    intro prev acc hval hps hall
    simp only [validAckRangesAux, Bool.and_eq_true, decide_eq_true_eq] at hval
    obtain ⟨⟨⟨hsl, hdesc⟩, hgap⟩, haux⟩ := hval
    have hcl : cur.largest < 4611686018427387904 := hall cur (by simp)
    have hall' : ∀ r ∈ rest, r.largest < 4611686018427387904 :=
      fun r hr => hall r (by simp [hr])
    simp only [encodeRangesTail, List.length_cons]
    rw [List.append_assoc]
    refine ReaderOk.bind (K := fun gap d =>
        if prev.smallest < gap + 2 then .error .invalidAckRanges
        else
          match readVarInt d with
          | .error e => .error e
          | .ok (len, d) =>
            if prev.smallest - gap - 2 < len then .error .invalidAckRanges
            else
              readAckRanges rest.length (prev.smallest - gap - 2 - len)
                (acc ++ [⟨prev.smallest - gap - 2 - len, prev.smallest - gap - 2⟩]) d)
      (fun d => by
        cases h : readVarInt d with
        | error e => simp [readAckRanges, h]
        | ok p =>
          obtain ⟨gap, d'⟩ := p
          simp [readAckRanges, h])
      (readVarInt_ReaderOk _ (by omega)) ?_
    refine ReaderOk.bind (K := fun len d =>
        if prev.smallest - (prev.smallest - cur.largest - 2) - 2 < len then
          .error .invalidAckRanges
        else
          readAckRanges rest.length
            (prev.smallest - (prev.smallest - cur.largest - 2) - 2 - len)
            (acc ++ [⟨prev.smallest - (prev.smallest - cur.largest - 2) - 2 - len,
              prev.smallest - (prev.smallest - cur.largest - 2) - 2⟩]) d)
      (fun d => by
        simp only [if_neg (show ¬prev.smallest < prev.smallest - cur.largest - 2 + 2 from
          by omega)]
        cases h : readVarInt d with
        | error e => simp [h]
        | ok p =>
          obtain ⟨len, d'⟩ := p
          simp [h])
      (readVarInt_ReaderOk _ (by omega)) ?_
    have e1 : prev.smallest - (prev.smallest - cur.largest - 2) - 2 = cur.largest := by
      omega
    have e2 : cur.largest - (cur.largest - cur.smallest) = cur.smallest := by omega
    have hres : (acc ++ [cur]) ++ rest = acc ++ cur :: rest := by simp
    refine ReaderOk.congr
      (R := readAckRanges rest.length cur.smallest (acc ++ [cur])) (fun d => ?_) ?_
    · simp only [e1]
      simp only [if_neg (show ¬cur.largest < cur.largest - cur.smallest from by omega), e2]
    · have h := ih cur (acc ++ [cur]) haux (by omega) hall'
      rwa [hres] at h

theorem ReaderOk.map {α β : Type}
    {R : List Nat → Except ParseError (α × List Nat)}
    {S : List Nat → Except ParseError (β × List Nat)}
    {f : α → β} {a : α} {c : List Nat}
    (hS : ∀ d, S d = match R d with
      | .error e => .error e
      | .ok (x, d') => .ok (f x, d'))
    (hR : ReaderOk R a c) : ReaderOk S (f a) c := by
  have h := ReaderOk.bind (K := fun x d => (.ok (f x, d) : Except ParseError (β × List Nat)))
    hS hR (ReaderOk.pure (f a))
  rwa [List.append_nil] at h

theorem parseAckBody_ReaderOk (g : AckFrame) (e : Nat) (r0 : AckRange)
    (rest : List AckRange) (hg : g.ackRanges = r0 :: rest)
    (hv : validateAckRangesL g.ackRanges = true)
    (hw : wfAckFrame g = true) :
    ReaderOk (parseAckBody e (hasECN g))
      (⟨g.ackRanges, decodeAckDelay (encodeAckDelay g.delayTime) e,
        g.ect0, g.ect1, g.ecnce⟩ : AckFrame)
      (ackBodyBytes g g.ackRanges) := by
  simp only [wfAckFrame, Bool.and_eq_true, decide_eq_true_eq, List.all_eq_true] at hw
  obtain ⟨⟨⟨⟨⟨hall, hlen⟩, hdel⟩, he0⟩, he1⟩, hece⟩ := hw
  rw [hg] at hv hall hlen ⊢
  simp only [validateAckRangesL, Bool.and_eq_true, decide_eq_true_eq] at hv
  obtain ⟨hs0, haux⟩ := hv
  have hl0 : r0.largest < 4611686018427387904 := by
    have := hall r0 (by simp)
    simpa using this
  have hall' : ∀ r ∈ rest, r.largest < 4611686018427387904 := by
    intro r hr
    have := hall r (by simp [hr])
    simpa using this
  have hrl : rest.length < 4611686018427387904 := by
    simp only [List.length_cons] at hlen
    omega
  have hdelB : encodeAckDelay g.delayTime < 4611686018427387904 := by
    unfold encodeAckDelay AckDelayExponent
    unfold maxDuration at hdel
    omega
  simp only [ackBodyBytes, List.append_assoc]
  refine ReaderOk.bind (K := fun la d => parseAckBody1 e (hasECN g) la d)
    (fun d => by
      cases h : readVarInt d with
      | error err => simp [parseAckBody, h]
      | ok p => obtain ⟨la, d'⟩ := p; simp [parseAckBody, h])
    (readVarInt_ReaderOk _ hl0) ?_
  refine ReaderOk.bind (K := fun delay d => parseAckBody2 e (hasECN g) r0.largest delay d)
    (fun d => by
      cases h : readVarInt d with
      | error err => simp [parseAckBody1, h]
      | ok p => obtain ⟨delay, d'⟩ := p; simp [parseAckBody1, h])
    (readVarInt_ReaderOk _ hdelB) ?_
  refine ReaderOk.bind (K := fun nb d =>
      parseAckBody3 e (hasECN g) r0.largest (encodeAckDelay g.delayTime) nb d)
    (fun d => by
      cases h : readVarInt d with
      | error err => simp [parseAckBody2, h]
      | ok p => obtain ⟨nb, d'⟩ := p; simp [parseAckBody2, h])
    (readVarInt_ReaderOk _ hrl) ?_
  refine ReaderOk.bind (K := fun ab d =>
      parseAckBody4 e (hasECN g) r0.largest (encodeAckDelay g.delayTime) rest.length ab d)
    (fun d => by
      cases h : readVarInt d with
      | error err => simp [parseAckBody3, h]
      | ok p => obtain ⟨ab, d'⟩ := p; simp [parseAckBody3, h])
    (readVarInt_ReaderOk _ (by omega)) ?_
  have e1 : r0.largest - (r0.largest - r0.smallest) = r0.smallest := by omega
  have e2 : (⟨r0.smallest, r0.largest⟩ : AckRange) = r0 := rfl
  refine ReaderOk.bind (K := fun ranges d =>
      parseAckTail e (hasECN g) (encodeAckDelay g.delayTime) ranges d)
    (fun d => by
      simp only [parseAckBody4, if_neg (show ¬r0.largest < r0.largest - r0.smallest from
        by omega), e1, e2]
      cases h : readAckRanges rest.length r0.smallest [r0] d with
      | error err => simp [h]
      | ok p => obtain ⟨ranges, d'⟩ := p; simp [h])
    (readAckRanges_ReaderOk rest r0 [r0] haux (by omega) hall') ?_
  have hres : ([r0] ++ rest : List AckRange) = r0 :: rest := by simp
  rw [hres]
  have hvc : validateAckRangesL (r0 :: rest) = true := by
    simp [validateAckRangesL, hs0, haux]
  by_cases hecn : hasECN g = true
  · rw [hecn]
    simp only [if_pos rfl]
    refine ReaderOk.congr (R := parseAckEcn e (r0 :: rest) (encodeAckDelay g.delayTime))
      (fun d => by simp [parseAckTail, hvc]) ?_
    refine ReaderOk.bind (K := fun e0 d =>
        parseAckEcn1 e (r0 :: rest) (encodeAckDelay g.delayTime) e0 d)
      (fun d => by
        cases h : readVarInt d with
        | error err => simp [parseAckEcn, h]
        | ok p => obtain ⟨e0, d'⟩ := p; simp [parseAckEcn, h])
      (readVarInt_ReaderOk _ he0) ?_
    refine ReaderOk.bind (K := fun e1 d =>
        parseAckEcn2 e (r0 :: rest) (encodeAckDelay g.delayTime) g.ect0 e1 d)
      (fun d => by
        cases h : readVarInt d with
        | error err => simp [parseAckEcn1, h]
        | ok p => obtain ⟨ee, d'⟩ := p; simp [parseAckEcn1, h])
      (readVarInt_ReaderOk _ he1) ?_
    refine ReaderOk.map (f := fun ce =>
        (⟨r0 :: rest, decodeAckDelay (encodeAckDelay g.delayTime) e,
          g.ect0, g.ect1, ce⟩ : AckFrame))
      (fun d => by
        cases h : readVarInt d with
        | error err => simp [parseAckEcn2, h]
        | ok p => obtain ⟨ce, d'⟩ := p; simp [parseAckEcn2, h])
      (readVarInt_ReaderOk _ hece)
  · have hecn' : hasECN g = false := by simpa using hecn
    rw [hecn']
    simp only [if_neg (show ¬(false = true) from by simp)]
    have hz : g.ect0 = 0 ∧ g.ect1 = 0 ∧ g.ecnce = 0 := by
      simp only [hasECN, Bool.or_eq_true, decide_eq_true_eq, Bool.not_eq_true] at hecn
      push_neg at hecn
      omega
    obtain ⟨hz0, hz1, hz2⟩ := hz
    rw [hz0, hz1, hz2]
    refine ReaderOk.congr (R := fun d =>
        .ok ((⟨r0 :: rest, decodeAckDelay (encodeAckDelay g.delayTime) e, 0, 0, 0⟩ :
          AckFrame), d))
      (fun d => by simp [parseAckTail, hvc, hecn]) (ReaderOk.pure _)

theorem readVarInt_encode (v : Nat) (hv : v < 4611686018427387904) :
    readVarInt (encodeVarInt v) = .ok (v, []) := by
  have h := readVarInt_append v hv []
  rwa [List.append_nil] at h

theorem encodeRangesTail_length (rest : List AckRange) :
    ∀ prev, (encodeRangesTail prev rest).length = rangesTailLen prev rest := by
  induction rest with
  | nil => intro prev; rfl
  | cons cur rest ih =>
    intro prev
    simp [encodeRangesTail, rangesTailLen, encodeVarInt_length, ih]
    omega

theorem ackBodyBytes_length (f : AckFrame) (r0 : AckRange) (rest : List AckRange) :
    (ackBodyBytes f (r0 :: rest)).length + 1 = ackFrameLengthWith f (r0 :: rest) := by
  simp only [ackBodyBytes, ackFrameLengthWith, List.length_append]
  by_cases h : hasECN f = true
  · simp [h, encodeVarInt_length, encodeRangesTail_length]
    omega
  · have h' : hasECN f = false := by simpa using h
    simp [h', encodeVarInt_length, encodeRangesTail_length]
    omega

theorem ackFrameLengthWith_single (f : AckFrame) (r : AckRange) :
    ackFrameLengthWith f [r] ≤ MaxAckFrameSize := by
  have h1 := varIntLen_le r.largest
  have h2 := varIntLen_le (encodeAckDelay f.delayTime)
  have h4 := varIntLen_le (r.largest - r.smallest)
  have h5 := varIntLen_le f.ect0
  have h6 := varIntLen_le f.ect1
  have h7 := varIntLen_le f.ecnce
  simp only [ackFrameLengthWith, rangesTailLen, List.length_nil, MaxAckFrameSize]
  have h3 := varIntLen_le 0
  split <;> omega

theorem capFrom_pos (f : AckFrame) : ∀ n, 1 ≤ n → 1 ≤ capFrom f n := by
  intro n
  induction n with
  | zero => omega
  | succ m ih =>
    intro _
    cases m with
    | zero => simp [capFrom]
    | succ k =>
      simp only [capFrom]
      split
      · omega
      · exact ih (by omega)

theorem capFrom_le (f : AckFrame) : ∀ n, capFrom f n ≤ n := by
  intro n
  induction n with
  | zero => simp [capFrom]
  | succ m ih =>
    cases m with
    | zero => simp [capFrom]
    | succ k =>
      simp only [capFrom]
      split
      · omega
      · have := ih
        omega

theorem capFrom_length_le (f : AckFrame) (r0 : AckRange) (rest : List AckRange)
    (hg : f.ackRanges = r0 :: rest) :
    ∀ n, 1 ≤ n →
      ackFrameLengthWith f (f.ackRanges.take (capFrom f n)) ≤ MaxAckFrameSize := by
  intro n
  induction n with
  | zero => omega
  | succ m ih =>
    intro _
    cases m with
    | zero =>
      simp only [capFrom, hg, List.take_succ_cons, List.take_zero]
      exact ackFrameLengthWith_single f r0
    | succ k =>
      simp only [capFrom]
      split
      · next h => exact h
      · exact ih (by omega)

theorem numEncodable_eq_length (f : AckFrame)
    (hle : ackFrameLengthWith f f.ackRanges ≤ MaxAckFrameSize) :
    numEncodableAckRanges f = f.ackRanges.length := by
  unfold numEncodableAckRanges
  rcases hn : f.ackRanges.length with _ | m
  · simp [capFrom]
  · cases m with
    | zero => simp [capFrom]
    | succ k =>
      simp only [capFrom]
      rw [if_pos]
      rw [← hn, List.take_length]
      exact hle

theorem validAckRangesAux_take (rest : List AckRange) :
    ∀ (prev : AckRange) (m : Nat), validAckRangesAux prev rest = true →
      validAckRangesAux prev (rest.take m) = true := by
  induction rest with
  | nil => intro prev m _; simp [List.take_nil, validAckRangesAux]
  | cons cur rest ih =>
    intro prev m h
    cases m with
    | zero => simp [validAckRangesAux]
    | succ m =>
      simp only [List.take_succ_cons, validAckRangesAux, Bool.and_eq_true] at h ⊢
      exact ⟨h.1, ih cur m h.2⟩

theorem validateAckRangesL_take (l : List AckRange) (k : Nat) (h1 : 1 ≤ k)
    (h : validateAckRangesL l = true) : validateAckRangesL (l.take k) = true := by
  cases l with
  | nil => simp [validateAckRangesL] at h
  | cons r0 rest =>
    cases k with
    | zero => omega
    | succ k =>
      simp only [List.take_succ_cons, validateAckRangesL, Bool.and_eq_true] at h ⊢
      exact ⟨h.1, validAckRangesAux_take rest r0 k h.2⟩

/-- The frame whose ranges are the capped (encodable) initial segment of
the given frame's ranges; `Append` serializes exactly this frame. -/
def capped (f : AckFrame) : AckFrame :=
  ⟨f.ackRanges.take (numEncodableAckRanges f), f.delayTime, f.ect0, f.ect1, f.ecnce⟩

theorem wfAckFrame_take (f : AckFrame) (k : Nat) (h : wfAckFrame f = true) :
    wfAckFrame ⟨f.ackRanges.take k, f.delayTime, f.ect0, f.ect1, f.ecnce⟩ = true := by
  simp only [wfAckFrame, Bool.and_eq_true, decide_eq_true_eq, List.all_eq_true] at h ⊢
  obtain ⟨⟨⟨⟨⟨hall, hlen⟩, hdel⟩, he0⟩, he1⟩, hece⟩ := h
  refine ⟨⟨⟨⟨⟨?_, ?_⟩, hdel⟩, he0⟩, he1⟩, hece⟩
  · intro r hr
    exact hall r (List.mem_of_mem_take hr)
  · simp only [List.length_take]
    omega

theorem parseAckFrame_Append (g : AckFrame) (e : Nat)
    (hv : g.validateAckRanges = true) (hw : wfAckFrame g = true)
    (hle : ackFrameLengthWith g g.ackRanges ≤ MaxAckFrameSize) :
    (∀ l, parseAckFrame (g.Append ++ l) e =
        .ok ((⟨g.ackRanges, decodeAckDelay (encodeAckDelay g.delayTime) e,
          g.ect0, g.ect1, g.ecnce⟩ : AckFrame), l)) ∧
      ∀ i, i < g.Append.length → parseAckFrame (g.Append.take i) e = .error .eof := by
  obtain ⟨r0, rest, hg⟩ : ∃ r0 rest, g.ackRanges = r0 :: rest := by
    cases h : g.ackRanges with
    | nil =>
      rw [AckFrame.validateAckRanges, h] at hv
      simp [validateAckRangesL] at hv
    | cons r0 rest => exact ⟨r0, rest, rfl⟩
  have hne : numEncodableAckRanges g = g.ackRanges.length := numEncodable_eq_length g hle
  have hApp : g.Append = (if hasECN g then 3 else 2) :: ackBodyBytes g g.ackRanges := by
    rw [AckFrame.Append, hne, List.take_length]
  have hB := parseAckBody_ReaderOk g e r0 rest hg hv hw
  have hecn : ∀ d, parseAckFrame ((if hasECN g then 3 else 2) :: d) e =
      parseAckBody e (hasECN g) d := by
    intro d
    by_cases h : hasECN g = true
    · rw [h]; rfl
    · have h' : hasECN g = false := by simpa using h
      rw [h']; rfl
  constructor
  · intro l
    rw [hApp, List.cons_append, hecn]
    exact hB.1 l
  · intro i hi
    rw [hApp] at hi ⊢
    cases i with
    | zero => rfl
    | succ i =>
      rw [List.take_succ_cons, hecn]
      simp only [List.length_cons] at hi
      exact hB.2 i (by omega)

theorem Append_capped (f : AckFrame) (hv : f.validateAckRanges = true) :
    f.Append = (capped f).Append := by
  obtain ⟨r0, rest, hg⟩ : ∃ r0 rest, f.ackRanges = r0 :: rest := by
    cases h : f.ackRanges with
    | nil =>
      rw [AckFrame.validateAckRanges, h] at hv
      simp [validateAckRangesL] at hv
    | cons r0 rest => exact ⟨r0, rest, rfl⟩
  have h1 : 1 ≤ f.ackRanges.length := by rw [hg]; simp
  have hcaple : ackFrameLengthWith (capped f) (capped f).ackRanges ≤ MaxAckFrameSize :=
    capFrom_length_le f r0 rest hg f.ackRanges.length h1
  have hne : numEncodableAckRanges (capped f) = (capped f).ackRanges.length :=
    numEncodable_eq_length (capped f) hcaple
  show _ = (if hasECN (capped f) then 3 else 2) ::
    ackBodyBytes (capped f) ((capped f).ackRanges.take (numEncodableAckRanges (capped f)))
  rw [hne, List.take_length]
  rfl

theorem validate_capped (f : AckFrame) (hv : f.validateAckRanges = true) :
    (capped f).validateAckRanges = true := by
  have h1 : 1 ≤ f.ackRanges.length := by
    cases h : f.ackRanges with
    | nil =>
      rw [AckFrame.validateAckRanges, h] at hv
      simp [validateAckRangesL] at hv
    | cons r0 rest => simp
  exact validateAckRangesL_take f.ackRanges (numEncodableAckRanges f)
    (capFrom_pos f f.ackRanges.length h1) hv

theorem wf_capped (f : AckFrame) (hw : wfAckFrame f = true) :
    wfAckFrame (capped f) = true :=
  wfAckFrame_take f (numEncodableAckRanges f) hw

theorem validAckRangesAux_iff (rest : List AckRange) :
    ∀ prev, validAckRangesAux prev rest = true ↔
      (∀ r ∈ rest, r.smallest ≤ r.largest) ∧
        List.Chain' (fun a b => b.largest < a.largest ∧ b.largest + 1 < a.smallest)
          (prev :: rest) := by
  induction rest with
  | nil => intro prev; simp [validAckRangesAux]
  | cons cur rest ih =>
    intro prev
    rw [List.chain'_cons]
    simp only [validAckRangesAux, Bool.and_eq_true, decide_eq_true_eq, ih cur,
      List.mem_cons]
    constructor
    · rintro ⟨⟨⟨h1, h2⟩, h3⟩, h4, h5⟩
      exact ⟨fun r hr => by rcases hr with rfl | hr; exact h1; exact h4 r hr,
        ⟨h2, h3⟩, h5⟩
    · rintro ⟨h1, ⟨h2, h3⟩, h5⟩
      exact ⟨⟨⟨h1 cur (Or.inl rfl), h2⟩, h3⟩, fun r hr => h1 r (Or.inr hr), h5⟩

theorem chain_desc (rest : List AckRange) :
    ∀ r : AckRange,
      List.Chain' (fun a b => b.largest < a.largest ∧ b.largest + 1 < a.smallest)
        (r :: rest) →
      ∀ b ∈ rest, b.largest < r.largest := by
  induction rest with
  | nil => simp
  | cons cur rest ih =>
    intro r h b hb
    rw [List.chain'_cons] at h
    rcases List.mem_cons.mp hb with rfl | hb'
    · exact h.1.1
    · exact lt_trans (ih cur h.2 b hb') h.1.1

theorem acksPacketScan_eq_any (l : List AckRange) (p : Nat)
    (h1 : ∀ r ∈ l, r.smallest ≤ r.largest)
    (h2 : List.Chain' (fun a b => b.largest < a.largest ∧ b.largest + 1 < a.smallest) l) :
    acksPacketScan l p =
      l.any (fun r => decide (r.smallest ≤ p) && decide (p ≤ r.largest)) := by
  induction l with
  | nil => rfl
  | cons r rest ih =>
    have h1' : ∀ a ∈ rest, a.smallest ≤ a.largest := fun a ha => h1 a (by simp [ha])
    have h2' : List.Chain'
        (fun a b => b.largest < a.largest ∧ b.largest + 1 < a.smallest) rest :=
      h2.tail
    simp only [acksPacketScan, List.any_cons]
    by_cases hc : r.largest < p
    · rw [if_pos hc]
      have hr : (decide (r.smallest ≤ p) && decide (p ≤ r.largest)) = false := by
        simp
        omega
      have hrest : rest.any
          (fun a => decide (a.smallest ≤ p) && decide (p ≤ a.largest)) = false := by
        rw [List.any_eq_false]
        intro b hb
        have := chain_desc rest r h2 b hb
        simp
        omega
      rw [hr, hrest]
      rfl
    · rw [if_neg hc]
      by_cases hs : r.smallest ≤ p
      · rw [if_pos hs]
        have : (decide (r.smallest ≤ p) && decide (p ≤ r.largest)) = true := by
          simp
          omega
        rw [this]
        rfl
      · rw [if_neg hs]
        have : (decide (r.smallest ≤ p) && decide (p ≤ r.largest)) = false := by
          simp
          omega
        rw [this, ih h1' h2']
        rfl

instance {ε α : Type} [DecidableEq ε] [DecidableEq α] : DecidableEq (Except ε α) :=
  fun a b =>
    match a, b with
    | .error x, .error y =>
      if h : x = y then .isTrue (by rw [h])
      else .isFalse (fun c => by cases c; exact h rfl)
    | .error _, .ok _ => .isFalse (fun c => by cases c)
    | .ok _, .error _ => .isFalse (fun c => by cases c)
    | .ok x, .ok y =>
      if h : x = y then .isTrue (by rw [h])
      else .isFalse (fun c => by cases c; exact h rfl)

theorem validateAckRangesL_iff (l : List AckRange) :
    validateAckRangesL l = true ↔
      l ≠ [] ∧ (∀ r ∈ l, r.smallest ≤ r.largest) ∧
        List.Chain' (fun a b => b.largest < a.largest ∧ b.largest + 1 < a.smallest) l := by
  cases l with
  | nil => simp [validateAckRangesL]
  | cons r0 rest =>
    simp only [validateAckRangesL, Bool.and_eq_true, decide_eq_true_eq,
      validAckRangesAux_iff rest r0, List.mem_cons, ne_eq, reduceCtorEq,
      not_false_eq_true, true_and]
    constructor
    · rintro ⟨hs, hall, hch⟩
      exact ⟨fun r hr => by rcases hr with rfl | hr; exact hs; exact hall r hr, hch⟩
    · rintro ⟨hall, hch⟩
      exact ⟨hall r0 (Or.inl rfl), fun r hr => hall r (Or.inr hr), hch⟩

/-- C1: the ACK bytes for largest-acked 100, delay 0, zero extra ranges,
first-ack-range 10 parse to the single range `{smallest 90, largest 100}`
with `HasMissingRanges` false, and the bytes for largest-acked 1000 with
one extra range (first-ack-range 100, gap 98, ack-range 50) parse to
exactly the ranges `[{1000,900},{800,750}]` with `HasMissingRanges`
true. -/
theorem c1_parse_scenarios :
    (parseAckFrame (2 :: (encodeVarInt 100 ++ encodeVarInt 0 ++ encodeVarInt 0 ++
        encodeVarInt 10)) AckDelayExponent =
      .ok (⟨[⟨90, 100⟩], 0, 0, 0, 0⟩, []) ∧
      AckFrame.HasMissingRanges ⟨[⟨90, 100⟩], 0, 0, 0, 0⟩ = false) ∧
    (parseAckFrame (2 :: (encodeVarInt 1000 ++ encodeVarInt 0 ++ encodeVarInt 1 ++
        encodeVarInt 100 ++ encodeVarInt 98 ++ encodeVarInt 50)) AckDelayExponent =
      .ok (⟨[⟨900, 1000⟩, ⟨750, 800⟩], 0, 0, 0, 0⟩, []) ∧
      AckFrame.HasMissingRanges ⟨[⟨900, 1000⟩, ⟨750, 800⟩], 0, 0, 0, 0⟩ = true) := by
  decide

/-- C2: whenever the ACK (or ACK_ECN) header varints decode to a
first-ack-range value strictly greater than largest-acked, `parseAckFrame`
fails with the invalid-first-ack-range (malformed frame) error and returns
no frame. -/
theorem c2_first_ack_range_exceeds (t e la delay nb ab : Nat)
    (d1 d2 d3 d4 d5 : List Nat)
    (ht : t = 2 ∨ t = 3)
    (h1 : readVarInt d1 = .ok (la, d2)) (h2 : readVarInt d2 = .ok (delay, d3))
    (h3 : readVarInt d3 = .ok (nb, d4)) (h4 : readVarInt d4 = .ok (ab, d5))
    (hgt : la < ab) :
    parseAckFrame (t :: d1) e = .error .invalidFirstAckRange := by
  simp [parseAckFrame, parseAckBody, h1, parseAckBody1, h2, parseAckBody2, h3,
    parseAckBody3, h4, parseAckBody4, hgt]

theorem c2_witness :
    readVarInt [20, 0, 0, 21] = .ok (20, [0, 0, 21]) ∧
      parseAckFrame (2 :: [20, 0, 0, 21]) 3 = .error .invalidFirstAckRange :=
  ⟨by decide,
    c2_first_ack_range_exceeds 2 3 20 0 0 21 [20, 0, 0, 21] [0, 0, 21] [0, 21] [21] []
      (Or.inl rfl) (by decide) (by decide) (by decide) (by decide) (by decide)⟩

/-- C3 counterexample: on the wire bytes with largest-acked 1000,
first-ack-range 100 (so the first range ends at smallest 900) and one
extra range with gap 98, the parse succeeds and the second range's largest
is 800, while the claim's formula `previous.smallest − gap − 1` gives 801:
the encoded gap is not the count of packet numbers strictly between the
ranges. -/
theorem c3_gap_counterexample :
    parseAckFrame (2 :: (encodeVarInt 1000 ++ encodeVarInt 0 ++ encodeVarInt 1 ++
        encodeVarInt 100 ++ encodeVarInt 98 ++ encodeVarInt 50)) AckDelayExponent =
      .ok (⟨[⟨900, 1000⟩, ⟨750, 800⟩], 0, 0, 0, 0⟩, []) ∧
      ¬((900 : Nat) - 98 - 1 = 800) := by
  decide

/-- C3 amended: every extra (gap, ack-range-length) pair decoded after a
range with smallest `s` produces the range with largest `s − gap − 2` —
one less than the number of unacknowledged packet numbers strictly between
the ranges — and smallest `s − gap − 2 − len`. -/
theorem c3_gap_step (n s gap len : Nat) (acc : List AckRange) (r : List Nat)
    (hgap : gap < 4611686018427387904) (hlen : len < 4611686018427387904)
    (hs : gap + 2 ≤ s) (hl : len ≤ s - gap - 2) :
    readAckRanges (n + 1) s acc (encodeVarInt gap ++ (encodeVarInt len ++ r)) =
      readAckRanges n (s - gap - 2 - len)
        (acc ++ [⟨s - gap - 2 - len, s - gap - 2⟩]) r := by
  have h1 := readVarInt_append gap hgap (encodeVarInt len ++ r)
  have h2 := readVarInt_append len hlen r
  simp only [readAckRanges, h1, h2]
  rw [if_neg (by omega), if_neg (by omega)]

theorem c3_gap_step_witness :
    98 + 2 ≤ 900 ∧ 50 ≤ 900 - 98 - 2 ∧
      readAckRanges (0 + 1) 900 [⟨900, 1000⟩]
          (encodeVarInt 98 ++ (encodeVarInt 50 ++ [])) =
        readAckRanges 0 (900 - 98 - 2 - 50)
          ([⟨900, 1000⟩] ++ [⟨900 - 98 - 2 - 50, 900 - 98 - 2⟩]) [] :=
  ⟨by decide, by decide,
    c3_gap_step 0 900 98 50 [⟨900, 1000⟩] [] (by decide) (by decide) (by decide)
      (by decide)⟩

/-- C6: for every raw ack-delay varint value and exponent, the parsed
frame's delay is the raw value times `2^e` microseconds when that product
is a representable duration, and saturates to the maximum representable
duration (about 292 years) instead of wrapping when it is not. -/
theorem c6_ack_delay (la v ab e : Nat)
    (hla : la < 4611686018427387904) (hv : v < 4611686018427387904)
    (hab : ab ≤ la) :
    parseAckFrame (2 :: (encodeVarInt la ++ (encodeVarInt v ++ (encodeVarInt 0 ++
        encodeVarInt ab)))) e =
      .ok (⟨[⟨la - ab, la⟩],
        if v * 2 ^ e * 1000 ≤ maxDuration then v * 2 ^ e * 1000 else maxDuration,
        0, 0, 0⟩, []) := by
  have h1 := readVarInt_append la hla (encodeVarInt v ++ (encodeVarInt 0 ++ encodeVarInt ab))
  have h2 := readVarInt_append v hv (encodeVarInt 0 ++ encodeVarInt ab)
  have h3 := readVarInt_append 0 (by omega) (encodeVarInt ab)
  have h4 := readVarInt_encode ab (by omega)
  simp [parseAckFrame, parseAckBody, h1, parseAckBody1, h2, parseAckBody2, h3,
    parseAckBody3, h4, parseAckBody4, if_neg (show ¬la < ab from by omega),
    readAckRanges, parseAckTail, validateAckRangesL, validAckRangesAux, Nat.sub_le,
    decodeAckDelay, Nat.min_def]

theorem c6_witness :
    (100 : Nat) < 4611686018427387904 ∧
      (3689348814741910323 : Nat) < 4611686018427387904 ∧ (0 : Nat) ≤ 100 ∧
      parseAckFrame (2 :: (encodeVarInt 100 ++ (encodeVarInt 3689348814741910323 ++
          (encodeVarInt 0 ++ encodeVarInt 0)))) 3 =
        .ok (⟨[⟨100 - 0, 100⟩],
          if 3689348814741910323 * 2 ^ 3 * 1000 ≤ maxDuration then
            3689348814741910323 * 2 ^ 3 * 1000
          else maxDuration, 0, 0, 0⟩, []) :=
  ⟨by decide, by decide, by decide,
    c6_ack_delay 100 3689348814741910323 0 3 (by decide) (by decide) (by decide)⟩

/-- C7: the ack-range validator returns true exactly when the sequence is
non-empty, every range has smallest ≤ largest, the ranges are strictly
descending by largest, and consecutive ranges neither overlap nor touch
(`ranges[i].smallest > ranges[i+1].largest + 1`). -/
theorem c7_validateAckRanges_iff (f : AckFrame) :
    f.validateAckRanges = true ↔
      f.ackRanges ≠ [] ∧ (∀ r ∈ f.ackRanges, r.smallest ≤ r.largest) ∧
        List.Chain' (fun a b => b.largest < a.largest ∧ b.largest + 1 < a.smallest)
          f.ackRanges := by
  rw [AckFrame.validateAckRanges, validateAckRangesL_iff]

/-- C8: on every range sequence accepted by the validator, the descending
early-exit scan `AcksPacket` returns the same boolean as the brute-force
membership scan, for every packet number. -/
theorem c8_acksPacket_eq_brute (f : AckFrame) (p : Nat)
    (hv : f.validateAckRanges = true) :
    f.AcksPacket p = acksPacketBrute f p := by
  rw [AckFrame.validateAckRanges, validateAckRangesL_iff] at hv
  exact acksPacketScan_eq_any f.ackRanges p hv.2.1 hv.2.2

theorem c8_witness :
    AckFrame.validateAckRanges ⟨[⟨15, 20⟩, ⟨5, 8⟩], 0, 0, 0, 0⟩ = true ∧
      AckFrame.AcksPacket ⟨[⟨15, 20⟩, ⟨5, 8⟩], 0, 0, 0, 0⟩ 9 =
        acksPacketBrute ⟨[⟨15, 20⟩, ⟨5, 8⟩], 0, 0, 0, 0⟩ 9 :=
  ⟨by decide, c8_acksPacket_eq_brute ⟨[⟨15, 20⟩, ⟨5, 8⟩], 0, 0, 0, 0⟩ 9 (by decide)⟩

/-- C9: a sent-packet record is outstanding exactly when it is not
declared lost, not a skipped packet number, and not a Path-MTU-probe
packet. -/
theorem c9_outstanding (p : Packet) :
    p.outstanding = true ↔
      p.declaredLost = false ∧ p.skippedPacket = false ∧
        p.isPathMTUProbePacket = false := by
  simp [Packet.outstanding, Bool.and_eq_true, Bool.not_eq_true', and_assoc]

/-- C4: when a validated frame's provisional wire length exceeds the fixed
byte budget, the serialization produced by `Append` stays within the
budget, keeps a non-empty initial segment of the descending range list
(dropping only tail ranges, never the single most-recent one), and the
kept ranges still pass the validator. -/
theorem c4_size_cap (f : AckFrame)
    (hv : f.validateAckRanges = true)
    (hover : MaxAckFrameSize < ackFrameLengthWith f f.ackRanges) :
    f.Append.length ≤ MaxAckFrameSize ∧
      1 ≤ numEncodableAckRanges f ∧ numEncodableAckRanges f ≤ f.ackRanges.length ∧
      f.Append = (if hasECN f then 3 else 2) ::
        ackBodyBytes f (f.ackRanges.take (numEncodableAckRanges f)) ∧
      validateAckRangesL (f.ackRanges.take (numEncodableAckRanges f)) = true := by
  obtain ⟨r0, rest, hg⟩ : ∃ r0 rest, f.ackRanges = r0 :: rest := by
    cases h : f.ackRanges with
    | nil =>
      rw [AckFrame.validateAckRanges, h] at hv
      simp [validateAckRangesL] at hv
    | cons r0 rest => exact ⟨r0, rest, rfl⟩
  have h1 : 1 ≤ f.ackRanges.length := by rw [hg]; simp
  have hk1 : 1 ≤ numEncodableAckRanges f := capFrom_pos f _ h1
  have hk2 : numEncodableAckRanges f ≤ f.ackRanges.length := capFrom_le f _
  have hle := capFrom_length_le f r0 rest hg f.ackRanges.length h1
  refine ⟨?_, hk1, hk2, rfl, validateAckRangesL_take _ _ hk1 hv⟩
  obtain ⟨m, hm⟩ : ∃ m, numEncodableAckRanges f = m + 1 :=
    ⟨numEncodableAckRanges f - 1, by omega⟩
  have htake : f.ackRanges.take (numEncodableAckRanges f) = r0 :: rest.take m := by
    rw [hg, hm, List.take_succ_cons]
  have hlen2 : f.Append.length =
      ackFrameLengthWith f (f.ackRanges.take (numEncodableAckRanges f)) := by
    simp only [AckFrame.Append, htake, List.length_cons]
    exact ackBodyBytes_length f r0 (rest.take m)
  rw [hlen2]
  exact hle

/-- An oversized frame: 520 singleton ranges spaced two apart, whose full
encoding exceeds the ack-frame byte budget. -/
def oversizedAckFrame : AckFrame :=
  ⟨(List.range 520).map (fun i => ⟨1040 - 2 * i, 1040 - 2 * i⟩), 0, 0, 0, 0⟩

set_option maxRecDepth 100000 in
theorem c4_witness :
    AckFrame.validateAckRanges oversizedAckFrame = true ∧
      MaxAckFrameSize < ackFrameLengthWith oversizedAckFrame oversizedAckFrame.ackRanges ∧
      (oversizedAckFrame.Append.length ≤ MaxAckFrameSize ∧
        1 ≤ numEncodableAckRanges oversizedAckFrame ∧
        numEncodableAckRanges oversizedAckFrame ≤ oversizedAckFrame.ackRanges.length ∧
        oversizedAckFrame.Append = (if hasECN oversizedAckFrame then 3 else 2) ::
          ackBodyBytes oversizedAckFrame
            (oversizedAckFrame.ackRanges.take (numEncodableAckRanges oversizedAckFrame)) ∧
        validateAckRangesL (oversizedAckFrame.ackRanges.take
          (numEncodableAckRanges oversizedAckFrame)) = true) :=
  ⟨by decide, by decide, c4_size_cap oversizedAckFrame (by decide) (by decide)⟩

/-- C5: for each of the four frame kinds (STOP_SENDING, PATH_CHALLENGE,
ACK, and its ACK_ECN variant — an `AckFrame` with nonzero ECN counters),
parsing any strict prefix of a valid encoded frame fails with the
truncation error and returns no partial frame. -/
theorem c5_truncation :
    (∀ f : StopSendingFrame, wfStopSending f = true →
      ∀ i, i < f.Append.length →
        parseStopSendingFrame (f.Append.take i) = .error .eof) ∧
    (∀ f : PathChallengeFrame, f.data.length = 8 →
      ∀ i, i < f.Append.length →
        parsePathChallengeFrame (f.Append.take i) = .error .eof) ∧
    (∀ (f : AckFrame) (e : Nat), f.validateAckRanges = true → wfAckFrame f = true →
      ∀ i, i < f.Append.length → parseAckFrame (f.Append.take i) e = .error .eof) := by
  refine ⟨?_, ?_, ?_⟩
  · intro f hwf i hi
    simp only [wfStopSending, Bool.and_eq_true, decide_eq_true_eq] at hwf
    obtain ⟨hsid, hec⟩ := hwf
    have hb : ReaderOk parseStopSending0 (⟨f.streamID, f.errorCode⟩ : StopSendingFrame)
        (encodeVarInt f.streamID ++ encodeVarInt f.errorCode) := by
      refine ReaderOk.bind (K := fun sid d => parseStopSending1 sid d)
        (fun d => by
          cases h : readVarInt d with
          | error err => simp [parseStopSending0, h]
          | ok p => obtain ⟨sid, d'⟩ := p; simp [parseStopSending0, h])
        (readVarInt_ReaderOk _ hsid) ?_
      exact ReaderOk.map (f := fun ec => (⟨f.streamID, ec⟩ : StopSendingFrame))
        (fun d => by
          cases h : readVarInt d with
          | error err => simp [parseStopSending1, h]
          | ok p => obtain ⟨ec, d'⟩ := p; simp [parseStopSending1, h])
        (readVarInt_ReaderOk _ hec)
    cases i with
    | zero => rfl
    | succ i =>
      show parseStopSendingFrame
        ((5 :: (encodeVarInt f.streamID ++ encodeVarInt f.errorCode)).take (i + 1)) =
          .error .eof
      rw [List.take_succ_cons]
      show parseStopSending0 _ = _
      apply hb.2
      simp only [StopSendingFrame.Append, List.length_cons] at hi
      omega
  · intro f h8 i hi
    cases i with
    | zero => rfl
    | succ i =>
      have hlt : ¬8 ≤ (f.data.take i).length := by
        simp only [List.length_take, h8]
        simp only [PathChallengeFrame.Append, List.length_cons, h8] at hi
        omega
      show parsePathChallengeFrame ((26 :: f.data).take (i + 1)) = .error .eof
      rw [List.take_succ_cons]
      simp only [parsePathChallengeFrame]
      rw [if_neg hlt]
  · intro f e hv hw i hi
    have hv' := validate_capped f hv
    have hw' := wf_capped f hw
    have hle' : ackFrameLengthWith (capped f) (capped f).ackRanges ≤ MaxAckFrameSize := by
      obtain ⟨r0, rest, hg⟩ : ∃ r0 rest, f.ackRanges = r0 :: rest := by
        cases h : f.ackRanges with
        | nil =>
          rw [AckFrame.validateAckRanges, h] at hv
          simp [validateAckRangesL] at hv
        | cons r0 rest => exact ⟨r0, rest, rfl⟩
      exact capFrom_length_le f r0 rest hg f.ackRanges.length (by rw [hg]; simp)
    rw [Append_capped f hv] at hi ⊢
    exact (parseAckFrame_Append (capped f) e hv' hw' hle').2 i hi

theorem c5_witness :
    (wfStopSending ⟨3735928559, 4919⟩ = true ∧
      parseStopSendingFrame ((StopSendingFrame.Append ⟨3735928559, 4919⟩).take 3) =
        .error .eof) ∧
    (([1, 2, 3, 4, 5, 6, 7, 8] : List Nat).length = 8 ∧
      parsePathChallengeFrame
          ((PathChallengeFrame.Append ⟨[1, 2, 3, 4, 5, 6, 7, 8]⟩).take 4) =
        .error .eof) ∧
    (AckFrame.validateAckRanges ⟨[⟨90, 100⟩], 0, 0, 0, 0⟩ = true ∧
      wfAckFrame ⟨[⟨90, 100⟩], 0, 0, 0, 0⟩ = true ∧
      parseAckFrame ((AckFrame.Append ⟨[⟨90, 100⟩], 0, 0, 0, 0⟩).take 3) 3 =
        .error .eof) :=
  ⟨⟨by decide, c5_truncation.1 ⟨3735928559, 4919⟩ (by decide) 3 (by decide)⟩,
    ⟨by decide, c5_truncation.2.1 ⟨[1, 2, 3, 4, 5, 6, 7, 8]⟩ (by decide) 4 (by decide)⟩,
    by decide, by decide,
    c5_truncation.2.2 ⟨[⟨90, 100⟩], 0, 0, 0, 0⟩ 3 (by decide) (by decide) 3 (by decide)⟩

/-- C10 counterexample: the validated, budget-sized frame with delay
1000 ns (1 µs — not a multiple of the 8 µs encoding granularity)
round-trips through Append and parse to a frame with delay 0, so the
round-trip is not the identity as claimed. -/
theorem c10_roundtrip_counterexample :
    AckFrame.validateAckRanges ⟨[⟨1, 1⟩], 1000, 0, 0, 0⟩ = true ∧
      ackFrameLengthWith ⟨[⟨1, 1⟩], 1000, 0, 0, 0⟩
        (⟨[⟨1, 1⟩], 1000, 0, 0, 0⟩ : AckFrame).ackRanges ≤ MaxAckFrameSize ∧
      parseAckFrame (AckFrame.Append ⟨[⟨1, 1⟩], 1000, 0, 0, 0⟩) AckDelayExponent =
        .ok (⟨[⟨1, 1⟩], 0, 0, 0, 0⟩, []) ∧
      (⟨[⟨1, 1⟩], 0, 0, 0, 0⟩ : AckFrame) ≠ ⟨[⟨1, 1⟩], 1000, 0, 0, 0⟩ := by
  decide

/-- C10 amended: for every encodable AckFrame whose ranges pass the
validator, whose full wire length is within the byte budget (so no capping
occurs), and whose delay is a whole multiple of the 8-microsecond
ack-delay encoding granularity, parsing the bytes Append produced with the
default ack-delay exponent yields exactly the original frame (same ranges,
same ECN counters, same delay) and consumes exactly those bytes. -/
theorem c10_roundtrip (f : AckFrame) (l : List Nat)
    (hv : f.validateAckRanges = true) (hw : wfAckFrame f = true)
    (hle : ackFrameLengthWith f f.ackRanges ≤ MaxAckFrameSize)
    (hdiv : f.delayTime % 8000 = 0) :
    parseAckFrame (f.Append ++ l) AckDelayExponent = .ok (f, l) := by
  have h := (parseAckFrame_Append f AckDelayExponent hv hw hle).1 l
  have hwd : f.delayTime ≤ maxDuration := by
    simp only [wfAckFrame, Bool.and_eq_true, decide_eq_true_eq] at hw
    exact hw.1.1.1.2
  have hdel : decodeAckDelay (encodeAckDelay f.delayTime) AckDelayExponent
      = f.delayTime := by
    have h1 : encodeAckDelay f.delayTime = f.delayTime / 8000 := by
      unfold encodeAckDelay AckDelayExponent
      norm_num
    have h2 : f.delayTime / 8000 * 2 ^ AckDelayExponent * 1000 = f.delayTime := by
      unfold AckDelayExponent
      have h8 : (2 : Nat) ^ 3 = 8 := by norm_num
      rw [h8]
      omega
    unfold decodeAckDelay
    rw [h1, h2]
    exact Nat.min_eq_left hwd
  rw [hdel] at h
  exact h

theorem c10_witness :
    AckFrame.validateAckRanges ⟨[⟨90, 100⟩], 16000, 0, 0, 0⟩ = true ∧
      wfAckFrame ⟨[⟨90, 100⟩], 16000, 0, 0, 0⟩ = true ∧
      ackFrameLengthWith ⟨[⟨90, 100⟩], 16000, 0, 0, 0⟩
        (⟨[⟨90, 100⟩], 16000, 0, 0, 0⟩ : AckFrame).ackRanges ≤ MaxAckFrameSize ∧
      (16000 : Nat) % 8000 = 0 ∧
      parseAckFrame (AckFrame.Append ⟨[⟨90, 100⟩], 16000, 0, 0, 0⟩ ++ [7])
          AckDelayExponent = .ok (⟨[⟨90, 100⟩], 16000, 0, 0, 0⟩, [7]) :=
  ⟨by decide, by decide, by decide, by decide,
    c10_roundtrip ⟨[⟨90, 100⟩], 16000, 0, 0, 0⟩ [7] (by decide) (by decide) (by decide)
      (by decide)⟩
